import Mathlib

/-!
Verification of the terminal coding agent (ttli3/terminal-coding-agent).

This file gives a shallow embedding of the algorithmic core of the
repository and proves (or refutes) the frozen claims about it:

* the line-level diff engine: the dynamic-programming longest common
  subsequence (`pkg/tools/list_files.go`, `longestCommonSubsequence`) and
  the addition/deletion/unchanged rendering walk shared by
  `GenerateDiff` (`pkg/tools/generate_diff.go`) and the edit tool;
* the edit tool `EditFile` (the `tools` package version), including the
  semantics of Go's `strings.Replace` with replace-all count `-1`;
* the two agent loops present in the repository: the monolithic
  `main.go` agent (`Run`/`executeTool` with the `readUserInput` flag and
  the tool-result user message) and the refactored `pkg/agent` agent
  (`Run`/`runInference`/`executeTool`, which substitutes tool results in
  place inside the assistant message).

Terminal colour codes, JSON schema generation and raw file-system
plumbing are presentation or I/O wrappers and are abstracted: tagged
diff lines replace ANSI-coloured strings, the file system is a map from
paths to contents, and the inference backend is an oracle from the
conversation to a response content list.
-/

/- ------------------------------------------------------------------ -/
/- Diff engine: LCS table and backtracking
   (pkg/tools/list_files.go, lines 172-207)                           -/
/- ------------------------------------------------------------------ -/

/-- One row-extension step of the LCS dynamic-programming table.
`lcsRow prevRow oLine M j` is `dp[i+1][j]` where `prevRow` is row `i`
of the table and `oLine` is `originalLines[i]`.  It implements the Go
recurrence `dp[i][j] = dp[i-1][j-1]+1` when the lines are equal and
`max(dp[i-1][j], dp[i][j-1])` otherwise. -/
def lcsRow (prevRow : Nat → Nat) (oLine : String) (M : List String) : Nat → Nat
  | 0 => 0
  | j + 1 =>
    if oLine = M.getD j "" then prevRow j + 1
    else max (prevRow (j + 1)) (lcsRow prevRow oLine M j)

/-- `lcsLen O M i j` is the Go table entry `dp[i][j]`: the length of the
longest common subsequence of the first `i` lines of `O` and the first
`j` lines of `M`, built row by row exactly as the Go loop fills it. -/
def lcsLen (O M : List String) : Nat → Nat → Nat
  | 0 => fun _ => 0
  | i + 1 => lcsRow (lcsLen O M i) (O.getD i "") M

/-- The defining recurrence of the table, as written in the Go source. -/
theorem lcsLen_succ_succ (O M : List String) (i j : Nat) :
    lcsLen O M (i + 1) (j + 1) =
      if O.getD i "" = M.getD j "" then lcsLen O M i j + 1
      else max (lcsLen O M i (j + 1)) (lcsLen O M (i + 1) j) := rfl

/-- The backtracking pass of `longestCommonSubsequence`.  The Go loop
`for i > 0 && j > 0` decreases `i + j` on every iteration, so running
it with `i + j` as fuel reproduces it exactly.  State `(i+1, j+1)`
corresponds to the Go loop variables `(i, j) = (i+1, j+1)`; a match
emits the alignment entry `(i, j)` (Go prepends, we append after the
recursive call, producing the same ascending list). -/
def backtrackF (O M : List String) : Nat → Nat → Nat → List (Nat × Nat)
  | 0, _, _ => []
  | _ + 1, 0, _ => []
  | _ + 1, _ + 1, 0 => []
  | fuel + 1, i + 1, j + 1 =>
    if O.getD i "" = M.getD j "" then
      backtrackF O M fuel i j ++ [(i, j)]
    else if lcsLen O M i (j + 1) > lcsLen O M (i + 1) j then
      backtrackF O M fuel i (j + 1)
    else
      backtrackF O M fuel (i + 1) j

/-- `longestCommonSubsequence` from `pkg/tools/list_files.go`: fill the
table, then backtrack from `dp[m][n]`. -/
def longestCommonSubsequence (O M : List String) : List (Nat × Nat) :=
  backtrackF O M (O.length + M.length) O.length M.length

/-- Strict pointwise order on alignment entries. -/
def entryLT (a b : Nat × Nat) : Prop := a.1 < b.1 ∧ a.2 < b.2

instance : DecidableRel entryLT := fun a b => by
  unfold entryLT; infer_instance

/-- An element selected by `getLast?` is a member of the list. -/
theorem memOfGetLast {α : Type} {l : List α} {x : α} (h : x ∈ l.getLast?) : x ∈ l := by
  rcases List.mem_getLast?_eq_getLast h with ⟨hne, rfl⟩
  exact List.getLast_mem hne

/-- Every list produced by the backtracking pass, from any state and
with any fuel, is a strictly increasing chain of in-range genuine
matches: entries are below the state `(i, j)`, and each entry pairs
equal lines. -/
theorem backtrackF_spec (O M : List String) :
    ∀ fuel i j,
      List.Chain' entryLT (backtrackF O M fuel i j) ∧
      ∀ p ∈ backtrackF O M fuel i j,
        p.1 < i ∧ p.2 < j ∧ O.getD p.1 "" = M.getD p.2 "" := by
  intro fuel
  induction fuel with
  | zero => intro i j; simp [backtrackF]
  | succ fuel ih =>
    intro i j
    match i, j with
    | 0, _ => simp [backtrackF]
    | _ + 1, 0 => simp [backtrackF]
    | i + 1, j + 1 =>
      rw [backtrackF]
      split
      · -- match branch: append the entry (i, j)
        refine ⟨?_, ?_⟩
        · rw [List.chain'_append]
          refine ⟨(ih i j).1, List.chain'_singleton _, ?_⟩
          intro x hx y hy
          have hxm : x ∈ backtrackF O M fuel i j := memOfGetLast hx
          have hb := (ih i j).2 x hxm
          have hyij : (i, j) = y := by simpa using hy
          subst hyij
          exact ⟨hb.1, hb.2.1⟩
        · intro p hp
          rcases List.mem_append.mp hp with hp | hp
          · have hb := (ih i j).2 p hp
            exact ⟨Nat.lt_succ_of_lt hb.1, Nat.lt_succ_of_lt hb.2.1, hb.2.2⟩
          · have : p = (i, j) := by simpa using hp
            subst this
            exact ⟨Nat.lt_succ_self i, Nat.lt_succ_self j, by assumption⟩
      · split
        · -- move up: dp[i-1][j] larger
          refine ⟨(ih i (j + 1)).1, ?_⟩
          intro p hp
          have hb := (ih i (j + 1)).2 p hp
          exact ⟨Nat.lt_succ_of_lt hb.1, hb.2.1, hb.2.2⟩
        · -- move left
          refine ⟨(ih (i + 1) j).1, ?_⟩
          intro p hp
          have hb := (ih (i + 1) j).2 p hp
          exact ⟨hb.1, Nat.lt_succ_of_lt hb.2.1, hb.2.2⟩

/-- C3: the alignment entries of the diff engine are a strictly
increasing chain of equal-line pairs, with both coordinates in range. -/
theorem lcs_entries_strict_mono_and_matching (O M : List String) :
    List.Chain' entryLT (longestCommonSubsequence O M) ∧
      ∀ p ∈ longestCommonSubsequence O M,
        p.1 < O.length ∧ p.2 < M.length ∧ O.getD p.1 "" = M.getD p.2 "" :=
  backtrackF_spec O M (O.length + M.length) O.length M.length

/- ------------------------------------------------------------------ -/
/- Diff engine: the rendering walk
   (pkg/tools/generate_diff.go, lines 27-82; the same walk appears in
   the edit tool and in the monolithic main.go)                       -/
/- ------------------------------------------------------------------ -/

/-- A rendered diff line.  The Go code emits ANSI-coloured `- `, `+ `
and dimmed context lines; the colour codes are presentation and are
abstracted into tags. -/
inductive DiffLine
  | deleted (s : String)
  | added (s : String)
  | unchanged (s : String)
deriving Repr, DecidableEq

/-- The rendering walk of `GenerateDiff`: for each alignment entry,
emit the pending original lines as deletions, the pending modified
lines as additions, then the matched line (read from `originalLines`)
as unchanged; after the last entry flush remaining deletions then
remaining additions.  The Go loop `for i < lcs[k].originalIndex`
leaves `i` at `max i oi`, which is where the unchanged line is read. -/
def renderWalk (O M : List String) : Nat → Nat → List (Nat × Nat) → List DiffLine
  | i, j, [] =>
    ((O.drop i).map DiffLine.deleted) ++ ((M.drop j).map DiffLine.added)
  | i, j, (oi, mi) :: rest =>
    (((O.drop i).take (oi - i)).map DiffLine.deleted) ++
      ((((M.drop j).take (mi - j)).map DiffLine.added) ++
        (DiffLine.unchanged (O.getD (max i oi) "") ::
          renderWalk O M (max i oi + 1) (max j mi + 1) rest))

/-- The same walk with every line access bounds-checked: `none` marks
the state in which the Go walk would index out of range (the deletion
loop reading past `originalLines`, the addition loop past
`modifiedLines`, or the unchanged line read `originalLines[i]`). -/
def renderWalkChecked (O M : List String) : Nat → Nat → List (Nat × Nat) → Option (List DiffLine)
  | i, j, [] => some (((O.drop i).map DiffLine.deleted) ++ ((M.drop j).map DiffLine.added))
  | i, j, (oi, mi) :: rest =>
    if (i < oi ∧ O.length < oi) ∨ (j < mi ∧ M.length < mi) ∨ O.length ≤ max i oi then
      none
    else
      (renderWalkChecked O M (max i oi + 1) (max j mi + 1) rest).map
        (fun r =>
          (((O.drop i).take (oi - i)).map DiffLine.deleted) ++
            ((((M.drop j).take (mi - j)).map DiffLine.added) ++
              (DiffLine.unchanged (O.getD (max i oi) "") :: r)))

/-- The full diff rendering of original lines `O` against modified
lines `M`, as `GenerateDiff` produces it (header text and colours
aside). -/
def generateDiffLines (O M : List String) : List DiffLine :=
  renderWalk O M 0 0 (longestCommonSubsequence O M)

/-- Applying a rendering back onto the original: keep `added` and
`unchanged` lines in output order, drop `deleted` lines. -/
def applyDiff : List DiffLine → List String
  | [] => []
  | DiffLine.deleted _ :: r => applyDiff r
  | DiffLine.added s :: r => s :: applyDiff r
  | DiffLine.unchanged s :: r => s :: applyDiff r

/-- `applyDiff` distributes over append. -/
theorem applyDiff_append (a b : List DiffLine) :
    applyDiff (a ++ b) = applyDiff a ++ applyDiff b := by
  induction a with
  | nil => rfl
  | cons x r ih => cases x <;> simp [applyDiff, ih]

/-- Deletions contribute nothing to the applied result. -/
theorem applyDiff_deleted (l : List String) :
    applyDiff (l.map DiffLine.deleted) = [] := by
  induction l with
  | nil => rfl
  | cons x r ih => simp [applyDiff, ih]

/-- Additions are kept verbatim. -/
theorem applyDiff_added (l : List String) :
    applyDiff (l.map DiffLine.added) = l := by
  induction l with
  | nil => rfl
  | cons x r ih => simp [applyDiff, ih]

/-- The reconstruction invariant of the walk: from counters `(i, j)`
and a strictly increasing, in-range, genuinely matching alignment list
whose first entry is at or beyond `(i, j)`, applying the rendered walk
yields exactly the remaining modified lines. -/
theorem renderWalk_applyDiff (O M : List String) :
    ∀ (l : List (Nat × Nat)) (i j : Nat),
      List.Chain' entryLT l →
      (∀ p ∈ l, p.1 < O.length ∧ p.2 < M.length ∧ O.getD p.1 "" = M.getD p.2 "") →
      (∀ p ∈ l.head?, i ≤ p.1 ∧ j ≤ p.2) →
      applyDiff (renderWalk O M i j l) = M.drop j := by
  intro l
  induction l with
  | nil =>
    intro i j _ _ _
    show applyDiff (((O.drop i).map DiffLine.deleted) ++ ((M.drop j).map DiffLine.added)) =
      M.drop j
    rw [applyDiff_append, applyDiff_deleted, applyDiff_added, List.nil_append]
  | cons p rest ih =>
    rcases p with ⟨oi, mi⟩
    intro i j hchain hbounds hhead
    have hij : i ≤ oi ∧ j ≤ mi := hhead (oi, mi) (by simp)
    have hb := hbounds (oi, mi) (List.mem_cons_self _ _)
    have hmaxo : max i oi = oi := Nat.max_eq_right hij.1
    have hmaxm : max j mi = mi := Nat.max_eq_right hij.2
    rw [List.chain'_cons'] at hchain
    have hrest := ih (oi + 1) (mi + 1) hchain.2
      (fun q hq => hbounds q (List.mem_cons_of_mem _ hq))
      (fun q hq => by
        have := hchain.1 q hq
        exact ⟨this.1, this.2⟩)
    rw [renderWalk, hmaxo, hmaxm]
    rw [applyDiff_append, applyDiff_append, applyDiff_deleted, applyDiff_added]
    simp only [applyDiff, hrest, List.nil_append]
    have hmiM : mi < M.length := hb.2.1
    have hgd : O.getD oi "" = M[mi] := by
      rw [hb.2.2]
      exact List.getD_eq_getElem M "" hmiM
    rw [hgd]
    have hdj : M.drop j = (M.drop j).take (mi - j) ++ (M.drop j).drop (mi - j) :=
      (List.take_append_drop _ _).symm
    have hdd : (M.drop j).drop (mi - j) = M.drop mi := by
      rw [List.drop_drop]
      congr 1
      omega
    have hdm : M.drop mi = M[mi] :: M.drop (mi + 1) := List.drop_eq_getElem_cons hmiM
    conv_rhs => rw [hdj]
    rw [hdd, hdm]

/-- C2: applying the diff engine's rendering of `O → M` back onto `O`
(keep unchanged and added lines in output order, drop deleted lines)
reconstructs `M` exactly. -/
theorem diff_round_trip (O M : List String) :
    applyDiff (generateDiffLines O M) = M := by
  have h := backtrackF_spec O M (O.length + M.length) O.length M.length
  have := renderWalk_applyDiff O M (longestCommonSubsequence O M) 0 0 h.1 h.2
    (fun p _ => ⟨Nat.zero_le _, Nat.zero_le _⟩)
  simpa [generateDiffLines] using this

/-- The walk invariant for the checked walk: along the alignment list
returned by the backtracking pass every access is in range, so the
checked walk never takes its `none` branch and agrees with the total
walk. -/
theorem renderWalkChecked_sound (O M : List String) :
    ∀ (l : List (Nat × Nat)) (i j : Nat),
      List.Chain' entryLT l →
      (∀ p ∈ l, p.1 < O.length ∧ p.2 < M.length ∧ O.getD p.1 "" = M.getD p.2 "") →
      (∀ p ∈ l.head?, i ≤ p.1 ∧ j ≤ p.2) →
      renderWalkChecked O M i j l = some (renderWalk O M i j l) := by
  intro l
  induction l with
  | nil => intro i j _ _ _; rfl
  | cons p rest ih =>
    rcases p with ⟨oi, mi⟩
    intro i j hchain hbounds hhead
    have hij : i ≤ oi ∧ j ≤ mi := hhead (oi, mi) (by simp)
    have hb := hbounds (oi, mi) (List.mem_cons_self _ _)
    have hmaxo : max i oi = oi := Nat.max_eq_right hij.1
    rw [List.chain'_cons'] at hchain
    have hrest := ih (max i oi + 1) (max j mi + 1) hchain.2
      (fun q hq => hbounds q (List.mem_cons_of_mem _ hq))
      (fun q hq => by
        have := hchain.1 q hq
        rw [hmaxo, Nat.max_eq_right hij.2]
        exact ⟨this.1, this.2⟩)
    rw [renderWalkChecked, if_neg, hrest]
    · rfl
    · push_neg
      refine ⟨fun _ => ?_, fun _ => ?_, ?_⟩
      · exact Nat.le_of_lt hb.1
      · exact Nat.le_of_lt hb.2.1
      · rw [hmaxo]; exact hb.1

/-- C9: the diff rendering walk only indexes in bounds — on the
alignment entries produced by the DP backtracking, the checked walk
never reaches its out-of-range branch and returns exactly the total
rendering. -/
theorem diff_walk_in_bounds (O M : List String) :
    renderWalkChecked O M 0 0 (longestCommonSubsequence O M) =
      some (generateDiffLines O M) := by
  have h := backtrackF_spec O M (O.length + M.length) O.length M.length
  exact renderWalkChecked_sound O M (longestCommonSubsequence O M) 0 0 h.1 h.2
    (fun p _ => ⟨Nat.zero_le _, Nat.zero_le _⟩)

/- ------------------------------------------------------------------ -/
/- Go strings.Replace (count -1) and the edit tool
   (src/unnamed/part_003, EditFile)                                   -/
/- ------------------------------------------------------------------ -/

/-- Go `strings.Replace(s, "", new, -1)`: with an empty search text the
pattern matches before every rune and once at the end, so `new` is
inserted before every character and appended after the last one. -/
def replaceEmptyPat (new : List Char) : List Char → List Char
  | [] => new
  | c :: rest => new ++ c :: replaceEmptyPat new rest

/-- Go `strings.Replace(s, old, new, -1)` for non-empty `old`: scan
left to right, replacing each leftmost non-overlapping occurrence.
Every step consumes at least one character, so the scan runs for at
most `s.length` steps; the fuel argument carries that bound (callers
pass `s.length`, making the `0` branch unreachable for non-empty
input). -/
def replaceAux (old new : List Char) : Nat → List Char → List Char
  | _, [] => []
  | 0, c :: rest => c :: rest
  | fuel + 1, c :: rest =>
    if old.isPrefixOf (c :: rest) then
      new ++ replaceAux old new fuel ((c :: rest).drop old.length)
    else
      c :: replaceAux old new fuel rest

/-- The number of replacements the scan of `replaceAux` performs. -/
def occAux (old : List Char) : Nat → List Char → Nat
  | _, [] => 0
  | 0, _ :: _ => 0
  | fuel + 1, c :: rest =>
    if old.isPrefixOf (c :: rest) then
      occAux old fuel ((c :: rest).drop old.length) + 1
    else
      occAux old fuel rest

/-- `strings.Replace(s, old, new, -1)` on strings, as the edit tool
calls it. -/
def strReplaceAll (s old new : String) : String :=
  if old = "" then String.mk (replaceEmptyPat new.toList s.toList)
  else String.mk (replaceAux old.toList new.toList s.toList.length s.toList)

/-- The boolean prefix test agrees with the prefix relation. -/
theorem prefBoolIff {a b : List Char} : a.isPrefixOf b ↔ a <+: b :=
  List.isPrefixOf_iff_prefix

/-- A leading occurrence is an occurrence. -/
theorem infOfPref {a b : List Char} (h : a <+: b) : a <:+: b := by
  rcases h with ⟨t, rfl⟩
  exact ⟨[], t, rfl⟩

/-- An occurrence in the tail is an occurrence in the whole list. -/
theorem infOfTail {a b : List Char} (c : Char) (h : a <:+: b) : a <:+: c :: b := by
  rcases h with ⟨s, t, rfl⟩
  exact ⟨c :: s, t, rfl⟩

/-- A non-empty prefix splits the list it is a prefix of. -/
theorem prefixSplit {old s : List Char} (h : old.isPrefixOf s) :
    old ++ s.drop old.length = s := by
  rcases prefBoolIff.mp h with ⟨t, rfl⟩
  rw [List.drop_left]

/-- If the search text occurs nowhere in `s`, the scan copies `s`
unchanged (any fuel). -/
theorem replaceAuxNotOccur (old new : List Char) :
    ∀ fuel (s : List Char), ¬ old <:+: s → replaceAux old new fuel s = s := by
  intro fuel
  induction fuel with
  | zero => intro s _; cases s <;> rfl
  | succ fuel ih =>
    intro s hninf
    cases s with
    | nil => rfl
    | cons c rest =>
      rw [replaceAux, if_neg, ih rest]
      · intro hinf
        exact hninf (infOfTail c hinf)
      · intro hpre
        exact hninf (infOfPref (prefBoolIff.mp hpre))

/-- Length accounting for the scan: each of the `occAux` replacements
trades `old.length` characters for `new.length` characters. -/
theorem replaceAux_length_occ {old : List Char} (new : List Char) (hold : old ≠ []) :
    ∀ fuel (s : List Char), s.length ≤ fuel →
      (replaceAux old new fuel s).length + occAux old fuel s * old.length
        = s.length + occAux old fuel s * new.length := by
  intro fuel
  induction fuel with
  | zero =>
    intro s hs
    have : s = [] := List.eq_nil_of_length_eq_zero (Nat.le_zero.mp hs)
    subst this
    simp [replaceAux, occAux]
  | succ fuel ih =>
    intro s hs
    cases s with
    | nil => simp [replaceAux, occAux]
    | cons c rest =>
      by_cases hpre : old.isPrefixOf (c :: rest)
      · have hsplit := prefixSplit hpre
        have holdlen : 1 ≤ old.length := by
          cases old with
          | nil => exact absurd rfl hold
          | cons _ _ => simp
        have hdroplen : ((c :: rest).drop old.length).length ≤ fuel := by
          rw [List.length_drop]
          simp only [List.length_cons] at hs ⊢
          omega
        have hIH := ih ((c :: rest).drop old.length) hdroplen
        rw [replaceAux, occAux, if_pos hpre, if_pos hpre]
        have hslen : old.length + ((c :: rest).drop old.length).length
            = (c :: rest).length := by
          conv_rhs => rw [← hsplit]
          rw [List.length_append]
        simp only [List.length_append, Nat.add_mul, Nat.one_mul]
        linarith
      · rw [replaceAux, occAux, if_neg hpre, if_neg hpre]
        have hIH := ih rest (by simp only [List.length_cons] at hs; omega)
        simp only [List.length_cons]
        linarith

/-- If the search text occurs in `s`, the scan makes at least one
replacement. -/
theorem occAux_pos {old : List Char} (hold : old ≠ []) :
    ∀ fuel (s : List Char), s.length ≤ fuel → old <:+: s → 1 ≤ occAux old fuel s := by
  intro fuel
  induction fuel with
  | zero =>
    intro s hs hinf
    have : s = [] := List.eq_nil_of_length_eq_zero (Nat.le_zero.mp hs)
    subst this
    exact absurd (List.infix_nil.mp hinf) hold
  | succ fuel ih =>
    intro s hs hinf
    cases s with
    | nil => exact absurd (List.infix_nil.mp hinf) hold
    | cons c rest =>
      by_cases hpre : old.isPrefixOf (c :: rest)
      · rw [occAux, if_pos hpre]; omega
      · rw [occAux, if_neg hpre]
        rcases List.infix_cons_iff.mp hinf with hp | hi
        · exact absurd (prefBoolIff.mpr hp) hpre
        · exact ih rest (by simp only [List.length_cons] at hs; omega) hi

/-- When search and replacement have equal lengths but differ, a scan
that performed a replacement cannot return its input. -/
theorem replaceAux_ne_of_eq_length {old new : List Char} (hold : old ≠ [])
    (hne : old ≠ new) (hlen : old.length = new.length) :
    ∀ fuel (s : List Char), s.length ≤ fuel → old <:+: s →
      replaceAux old new fuel s ≠ s := by
  intro fuel
  induction fuel with
  | zero =>
    intro s hs hinf
    have : s = [] := List.eq_nil_of_length_eq_zero (Nat.le_zero.mp hs)
    subst this
    exact absurd (List.infix_nil.mp hinf) hold
  | succ fuel ih =>
    intro s hs hinf
    cases s with
    | nil => exact absurd (List.infix_nil.mp hinf) hold
    | cons c rest =>
      by_cases hpre : old.isPrefixOf (c :: rest)
      · have hsplit := prefixSplit hpre
        rw [replaceAux, if_pos hpre]
        intro heq
        rw [← hsplit] at heq
        have := (List.append_inj heq (hlen.symm)).1
        exact hne this.symm
      · rw [replaceAux, if_neg hpre]
        intro heq
        have htl : replaceAux old new fuel rest = rest := (List.cons.injEq _ _ _ _ ▸ heq).2
        rcases List.infix_cons_iff.mp hinf with hp | hi
        · exact absurd (prefBoolIff.mpr hp) hpre
        · exact ih rest (by simp only [List.length_cons] at hs; omega) hi htl

/-- The scan changes its input whenever the non-empty search text
occurs and differs from the replacement. -/
theorem replaceAux_changes {old new : List Char} (hold : old ≠ []) (hne : old ≠ new) :
    ∀ s : List Char, old <:+: s → replaceAux old new s.length s ≠ s := by
  intro s hinf heq
  have hL := replaceAux_length_occ new hold s.length s le_rfl
  rw [heq] at hL
  have hocc := occAux_pos hold s.length s le_rfl hinf
  have hlen : old.length = new.length := by
    have h1 : occAux old s.length s * old.length = occAux old s.length s * new.length := by
      omega
    exact Nat.eq_of_mul_eq_mul_left (by omega) h1
  exact replaceAux_ne_of_eq_length hold hne hlen s.length s le_rfl hinf heq

/-- The empty-pattern replacement inserts the replacement before every
character and once after the last. -/
theorem replaceEmptyPat_eq (new : List Char) :
    ∀ s : List Char,
      replaceEmptyPat new s = (s.map (fun c => new ++ [c])).flatten ++ new := by
  intro s
  induction s with
  | nil => simp [replaceEmptyPat]
  | cons c rest ih => simp [replaceEmptyPat, ih]

/-- The file system as the edit tool sees it: a map from path to file
contents (`none` = the path does not exist).  Directory creation,
permission bits and write failures are I/O plumbing outside the
embedding. -/
def FS : Type := String → Option String

/-- Writing a file: `os.WriteFile(path, v, 0644)`. -/
def updateFS (fs : FS) (p v : String) : FS := fun q => if q = p then some v else fs q

/-- The edit tool's input (`path`, `old_str`, `new_str`). -/
structure EditFileInput where
  path : String
  oldStr : String
  newStr : String

/-- `EditFile` from the `tools` package.  The returned `Except` carries
the error strings of the Go code; the success payload (the
human-readable change summary containing a diff rendering) is
presentation and is elided to `Unit`.  The second component is the
resulting file system. -/
def EditFile (fs : FS) (inp : EditFileInput) : Except String Unit × FS :=
  if inp.path = "" ∨ inp.oldStr = inp.newStr then
    (Except.error "invalid input parameters", fs)
  else
    match fs inp.path with
    | none =>
      if inp.oldStr = "" then
        (Except.ok (), updateFS fs inp.path inp.newStr)
      else
        (Except.error "file does not exist", fs)
    | some content =>
      let newContent := strReplaceAll content inp.oldStr inp.newStr
      if content = newContent ∧ inp.oldStr ≠ "" then
        (Except.error "old_str not found in file", fs)
      else
        (Except.ok (), updateFS fs inp.path newContent)

/-- Rebuilding a string from its character list is the identity. -/
theorem stringMkData (s : String) : String.mk s.toList = s := rfl

/-- A string with a non-empty character list is not the empty string,
and conversely. -/
theorem toListNeNil {s : String} (h : s ≠ "") : s.toList ≠ [] := by
  intro hnil
  apply h
  rw [← stringMkData s, hnil]

/-- Distinct strings have distinct character lists. -/
theorem toListNe {a b : String} (h : a ≠ b) : a.toList ≠ b.toList := by
  intro heq
  apply h
  rw [← stringMkData a, heq, stringMkData]

/-- A one-file file system used to refute C5 as stated. -/
def fsC5 : FS := fun p => if p = "f.txt" then some "x" else none

/-- C5 counterexample: the file `f.txt` exists with content `"x"` and
the search text `"y"` is non-empty and does not occur in it, yet with
replacement text `"y"` the edit tool fails with the input-validation
error, not the no-match error, because `old_str == new_str` is rejected
first. -/
theorem editFile_no_match_counterexample :
    fsC5 "f.txt" = some "x" ∧
    ("y" : String) ≠ "" ∧
    ¬ (("y" : String).toList <:+: ("x" : String).toList) ∧
    (EditFile fsC5 ⟨"f.txt", "y", "y"⟩).1 = Except.error "invalid input parameters" ∧
    (EditFile fsC5 ⟨"f.txt", "y", "y"⟩).1 ≠ Except.error "old_str not found in file" := by
  refine ⟨rfl, by decide, by decide, rfl, ?_⟩
  intro h
  have h2 := (rfl :
    (Except.error "invalid input parameters" : Except String Unit)
      = (EditFile fsC5 ⟨"f.txt", "y", "y"⟩).1).trans h
  injection h2 with h3
  exact absurd h3 (by decide)

/-- C5 amended: for an existing file whose content does not contain the
non-empty search text, the edit tool fails and leaves the file system
untouched; the error is `old_str not found in file` when the
replacement differs from the search text, and `invalid input
parameters` when they are identical. -/
theorem editFile_no_match_amended :
    ∀ (fs : FS) (path c old new : String),
      fs path = some c → path ≠ "" → old ≠ "" → ¬ (old.toList <:+: c.toList) →
      (old ≠ new →
        EditFile fs ⟨path, old, new⟩ = (Except.error "old_str not found in file", fs)) ∧
      (old = new →
        EditFile fs ⟨path, old, new⟩ = (Except.error "invalid input parameters", fs)) := by
  intro fs path c old new hfs hpath hold hninf
  constructor
  · intro hne
    have hrepl : strReplaceAll c old new = c := by
      unfold strReplaceAll
      rw [if_neg hold, replaceAuxNotOccur old.toList new.toList _ _ hninf,
        stringMkData]
    simp [EditFile, hpath, hne, hfs, hrepl, hold]
  · intro heq
    simp [EditFile, heq]

/-- A one-file file system for the C5 witness. -/
def fsC5w : FS := fun p => if p = "g.txt" then some "x" else none

/-- Witness for the amended C5 at a concrete input. -/
theorem editFile_no_match_amended_witness :
    EditFile fsC5w ⟨"g.txt", "y", "z"⟩ = (Except.error "old_str not found in file", fsC5w) :=
  (editFile_no_match_amended fsC5w "g.txt" "x" "y" "z" rfl (by decide) (by decide)
    (by decide)).1 (by decide)

/-- A one-file file system used to refute C6 as stated. -/
def fsC6 : FS := fun p => if p = "f.txt" then some "foo foo" else none

/-- C6 counterexample: content `"foo foo"` contains the non-empty
search text `"foo"`, but with replacement text `"foo"` the edit tool
does not replace-and-persist — it fails with the input-validation
error, because identical search and replacement are rejected before
any replacement happens. -/
theorem editFile_multi_replace_counterexample :
    fsC6 "f.txt" = some "foo foo" ∧
    (("foo" : String).toList <:+: ("foo foo" : String).toList) ∧
    (EditFile fsC6 ⟨"f.txt", "foo", "foo"⟩).1 = Except.error "invalid input parameters" ∧
    (EditFile fsC6 ⟨"f.txt", "foo", "foo"⟩).1 ≠ Except.ok () := by
  refine ⟨rfl, by decide, rfl, ?_⟩
  intro h
  exact absurd ((rfl :
    (Except.error "invalid input parameters" : Except String Unit)
      = (EditFile fsC6 ⟨"f.txt", "foo", "foo"⟩).1).trans h) (by simp)

/-- C6 amended: when an existing file's content contains the non-empty
search text and the replacement text differs from it, the edit tool
succeeds and persists the content with every occurrence replaced; in
particular `"foo foo"` with search `"foo"` and replacement `"bar"`
becomes `"bar bar"`.  (With replacement equal to search the tool
instead rejects the request as invalid input and writes nothing.) -/
theorem editFile_multi_replace_amended :
    (∀ (fs : FS) (path c old new : String),
      fs path = some c → path ≠ "" → old ≠ "" → old ≠ new →
      old.toList <:+: c.toList →
      EditFile fs ⟨path, old, new⟩ =
        (Except.ok (), updateFS fs path (strReplaceAll c old new))) ∧
    strReplaceAll "foo foo" "foo" "bar" = "bar bar" := by
  constructor
  · intro fs path c old new hfs hpath hold hne hinf
    have hchanged : c ≠ strReplaceAll c old new := by
      intro hceq
      have hlist : replaceAux old.toList new.toList c.toList.length c.toList = c.toList := by
        have : c.toList = (strReplaceAll c old new).toList := by rw [← hceq]
        rw [strReplaceAll, if_neg hold] at this
        exact this.symm
      exact replaceAux_changes (toListNeNil hold) (toListNe hne) c.toList hinf hlist
    simp [EditFile, hpath, hne, hfs, hchanged]
  · decide

/-- A one-file file system for the C6 witness. -/
def fsC6w : FS := fun p => if p = "h.txt" then some "foo foo" else none

/-- Witness for the amended C6 at a concrete input. -/
theorem editFile_multi_replace_amended_witness :
    EditFile fsC6w ⟨"h.txt", "foo", "bar"⟩ =
      (Except.ok (), updateFS fsC6w "h.txt" (strReplaceAll "foo foo" "foo" "bar")) :=
  editFile_multi_replace_amended.1 fsC6w "h.txt" "foo foo" "foo" "bar" rfl (by decide)
    (by decide) (by decide) (by decide)

/-- C10: editing an existing file with empty search text and non-empty
replacement does not fail: following Go's empty-pattern replacement
semantics the tool persists the replacement inserted before every
character of the existing content and once at the end (the no-match
error branch requires a non-empty search text and is skipped). -/
theorem editFile_empty_search_garbles (fs : FS) (path c new : String)
    (hfs : fs path = some c) (hpath : path ≠ "") (hnew : new ≠ "") :
    EditFile fs ⟨path, "", new⟩ =
      (Except.ok (), updateFS fs path
        (String.mk ((c.toList.map (fun ch => new.toList ++ [ch])).flatten ++ new.toList))) := by
  have hne : ("" : String) ≠ new := fun h => hnew h.symm
  have hrepl : strReplaceAll c "" new =
      String.mk ((c.toList.map (fun ch => new.toList ++ [ch])).flatten ++ new.toList) := by
    rw [strReplaceAll, if_pos rfl, replaceEmptyPat_eq]
  simp [EditFile, hpath, hne, hfs, hrepl]

/-- A one-file file system for the C10 witness. -/
def fsC10w : FS := fun p => if p = "k.txt" then some "ab" else none

/-- Witness for C10 at a concrete input: content `"ab"`, replacement
`"X"`, persisted result `"XaXbX"`. -/
theorem editFile_empty_search_garbles_witness :
    EditFile fsC10w ⟨"k.txt", "", "X"⟩ =
      (Except.ok (), updateFS fsC10w "k.txt"
        (String.mk ((("ab" : String).toList.map
          (fun ch => ("X" : String).toList ++ [ch])).flatten ++ ("X" : String).toList))) :=
  editFile_empty_search_garbles fsC10w "k.txt" "ab" "X" rfl (by decide) (by decide)

/-- Witness for C3 at a concrete input: diffing `["a"]` against `["a"]`
produces the alignment entry `(0, 0)`, which is in range and pairs
equal lines. -/
theorem lcs_entries_strict_mono_and_matching_witness :
    List.Chain' entryLT (longestCommonSubsequence ["a"] ["a"]) ∧
      ((0, 0) : Nat × Nat).1 < (["a"] : List String).length ∧
      ((0, 0) : Nat × Nat).2 < (["a"] : List String).length ∧
      (["a"] : List String).getD ((0, 0) : Nat × Nat).1 ""
        = (["a"] : List String).getD ((0, 0) : Nat × Nat).2 "" :=
  ⟨(lcs_entries_strict_mono_and_matching ["a"] ["a"]).1,
   (lcs_entries_strict_mono_and_matching ["a"] ["a"]).2 (0, 0) (by decide)⟩

/- ------------------------------------------------------------------ -/
/- Agent loops: data model
   (src/pkg/agent/agent.go and the monolithic main.go in
   src/unnamed/part_001)                                              -/
/- ------------------------------------------------------------------ -/

/-- Message roles.  The SDK's `assistant` role is the spec's `model`
role. -/
inductive Role
  | user
  | assistant
deriving Repr, DecidableEq

/-- A content block: the closed tagged union of `text`, `tool_use`
and `tool_result`.  Structured tool input (`json.RawMessage`) is kept
as an opaque string. -/
inductive ContentBlock
  | text (s : String)
  | toolUse (id toolName input : String)
  | toolResult (toolUseId content : String) (isError : Bool)
deriving Repr, DecidableEq

/-- A conversation message. -/
structure Message where
  role : Role
  content : List ContentBlock
deriving Repr, DecidableEq

/-- A tool specification: name, description and execution function
(input schema generation is out of scope).  `fn` models
`func(input json.RawMessage) (string, error)`. -/
structure ToolDefinition where
  name : String
  description : String
  fn : String → Except String String

/-- Observable events of one run, in order: the `You: ` prompt, an
inference call, a tool dispatch (the `tool: name(input)` trace plus the
execution), and a print of model text to the terminal. -/
inductive Event
  | prompt
  | inferCall
  | dispatch (toolName input : String)
  | printText (s : String)
deriving Repr, DecidableEq

/-- A user message holding one text block. -/
def mkUserText (s : String) : Message := ⟨Role.user, [ContentBlock.text s]⟩

/- ------------------------------------------------------------------ -/
/- The monolithic agent (src/unnamed/part_001, Run / executeTool)     -/
/- ------------------------------------------------------------------ -/

/-- `executeTool` of the monolithic agent: first registered tool with a
matching name; unknown names give the fixed `tool not found` result
with the error flag set; a failing execution function gives its error
message with the error flag set. -/
def executeToolMain (tools : List ToolDefinition) (id toolName input : String) : ContentBlock :=
  match tools.find? (fun t => t.name == toolName) with
  | none => ContentBlock.toolResult id "tool not found" true
  | some t =>
    match t.fn input with
    | Except.error e => ContentBlock.toolResult id e true
    | Except.ok r => ContentBlock.toolResult id r false

/-- The monolithic agent's per-turn content walk: text blocks are
printed as encountered, `tool_use` blocks are dispatched as
encountered, and any other block kind is skipped.  Returns the
collected tool results (in block order) and the emitted events (in
block order). -/
def processBlocksMain (tools : List ToolDefinition) :
    List ContentBlock → List ContentBlock × List Event
  | [] => ([], [])
  | ContentBlock.text s :: rest =>
    let r := processBlocksMain tools rest
    (r.1, Event.printText s :: r.2)
  | ContentBlock.toolUse id n inp :: rest =>
    let r := processBlocksMain tools rest
    (executeToolMain tools id n inp :: r.1, Event.dispatch n inp :: r.2)
  | ContentBlock.toolResult _ _ _ :: rest => processBlocksMain tools rest

/-- The outcome of one iteration of the monolithic `for` loop. -/
inductive TurnResult
  | halted (conv : List Message) (evs : List Event)
  | next (inputs : List String) (readNext : Bool) (conv : List Message) (evs : List Event)

/-- The inference-and-dispatch part of one monolithic loop iteration:
call the backend on the conversation (an inference failure returns from
`Run`, halting with the conversation as appended so far); append the
response as an assistant message; walk its blocks; if no tool results
were collected, continue reading user input, otherwise append a single
user message holding the tool results and continue without reading
input. -/
def mainInfer (tools : List ToolDefinition)
    (infer : List Message → Except String (List ContentBlock))
    (inputs : List String) (conv : List Message) (evs : List Event) : TurnResult :=
  match infer conv with
  | Except.error _ => TurnResult.halted conv (evs ++ [Event.inferCall])
  | Except.ok c =>
    if (processBlocksMain tools c).1 = [] then
      TurnResult.next inputs true (conv ++ [Message.mk Role.assistant c])
        (evs ++ Event.inferCall :: (processBlocksMain tools c).2)
    else
      TurnResult.next inputs false
        ((conv ++ [Message.mk Role.assistant c]) ++
          [Message.mk Role.user (processBlocksMain tools c).1])
        (evs ++ Event.inferCall :: (processBlocksMain tools c).2)

/-- One iteration of the monolithic loop: when `readNext` is set,
prompt and read a line (end of input halts the loop), append it as a
user message and infer; otherwise infer immediately on the unchanged
conversation. -/
def mainStep (tools : List ToolDefinition)
    (infer : List Message → Except String (List ContentBlock))
    (inputs : List String) (readNext : Bool) (conv : List Message) : TurnResult :=
  if readNext then
    match inputs with
    | [] => TurnResult.halted conv [Event.prompt]
    | u :: rest =>
      mainInfer tools infer rest (conv ++ [mkUserText u]) [Event.prompt]
  else
    mainInfer tools infer inputs conv []

/-- The monolithic agent's `Run` loop.  `inputs` is the list of lines
the user will type (its end is end-of-input); `infer` is the inference
backend returning the response's content blocks (responses always
carry the assistant role).  Chained tool turns consume no input, so the
loop need not terminate; `fuel` bounds the number of iterations
modelled.  Returns the final conversation and the event trace. -/
def runMain (tools : List ToolDefinition)
    (infer : List Message → Except String (List ContentBlock)) :
    Nat → List String → Bool → List Message → List Message × List Event
  | 0, _, _, conv => (conv, [])
  | fuel + 1, inputs, readNext, conv =>
    match mainStep tools infer inputs readNext conv with
    | TurnResult.halted conv' evs => (conv', evs)
    | TurnResult.next inputs' readNext' conv' evs =>
      let r := runMain tools infer fuel inputs' readNext' conv'
      (r.1, evs ++ r.2)

/-- A full monolithic run: the conversation starts empty with
`readUserInput` set. -/
def runMainFull (tools : List ToolDefinition)
    (infer : List Message → Except String (List ContentBlock))
    (fuel : Nat) (inputs : List String) : List Message × List Event :=
  runMain tools infer fuel inputs true []

/- ------------------------------------------------------------------ -/
/- The pkg/agent agent (src/pkg/agent/agent.go)                       -/
/- ------------------------------------------------------------------ -/

/-- `executeTool` of `pkg/agent`: unknown names give an error string
that embeds the tool name, and no branch of this version sets the
`IsError` field of the result block, so the flag is always its zero
value `false`. -/
def executeToolPkg (tools : List ToolDefinition) (id toolName input : String) : ContentBlock :=
  match tools.find? (fun t => t.name == toolName) with
  | none => ContentBlock.toolResult id ("Error: Tool " ++ toolName ++ " not found") false
  | some t =>
    match t.fn input with
    | Except.error e => ContentBlock.toolResult id ("Error: " ++ e) false
    | Except.ok r => ContentBlock.toolResult id r false

/-- The in-place substitution loop of `pkg/agent`'s `runInference`:
each `tool_use` block is dispatched (a dispatch event) and replaced by
its tool result inside the response's own content; every other block
is kept as is.  Returns the substituted content and the dispatch
events in block order. -/
def substituteToolCalls (tools : List ToolDefinition) :
    List ContentBlock → List ContentBlock × List Event
  | [] => ([], [])
  | ContentBlock.toolUse id n inp :: rest =>
    let r := substituteToolCalls tools rest
    (executeToolPkg tools id n inp :: r.1, Event.dispatch n inp :: r.2)
  | b :: rest =>
    let r := substituteToolCalls tools rest
    (b :: r.1, r.2)

/-- `formatResponse` of `pkg/agent`: concatenate text blocks; render
tool results as `result: <content>` lines; skip tool-use blocks. -/
def formatResponse : List ContentBlock → String
  | [] => ""
  | ContentBlock.text s :: r => s ++ formatResponse r
  | ContentBlock.toolResult _ content _ :: r =>
    "result: " ++ content ++ "\n" ++ formatResponse r
  | ContentBlock.toolUse _ _ _ :: r => formatResponse r

/-- The events of one `pkg/agent` turn for a response with content
`c`: `runInference` dispatches every `tool_use` (substituting results
in place), then `Run` prints the formatted substituted response once. -/
def turnEventsPkg (tools : List ToolDefinition) (c : List ContentBlock) : List Event :=
  (substituteToolCalls tools c).2 ++
    [Event.printText (formatResponse (substituteToolCalls tools c).1)]

/-- The events of one monolithic turn for a response with content `c`:
prints and dispatches interleaved in block order. -/
def turnEventsMain (tools : List ToolDefinition) (c : List ContentBlock) : List Event :=
  (processBlocksMain tools c).2

/-- The priming message `pkg/agent`'s `Run` seeds the conversation
with (a user-role text block; the instruction text is abbreviated
here, its exact wording plays no role). -/
def primeMessage : Message :=
  ⟨Role.user, [ContentBlock.text "You are a coding assistant."]⟩

/-- `pkg/agent`'s `Run` loop: prompt and read a line (end of input
halts), append it as a user message, run inference (which substitutes
tool results into the response in place), append the substituted
response as an assistant message, print it, and loop.  There is no
tool-result user message and no re-inference: every iteration prompts
the user. -/
def runPkg (tools : List ToolDefinition)
    (infer : List Message → Except String (List ContentBlock)) :
    List String → List Message → List Message × List Event
  | [], conv => (conv, [Event.prompt])
  | u :: rest, conv =>
    match infer (conv ++ [mkUserText u]) with
    | Except.error _ => (conv ++ [mkUserText u], [Event.prompt, Event.inferCall])
    | Except.ok c =>
      ((runPkg tools infer rest ((conv ++ [mkUserText u]) ++
          [Message.mk Role.assistant (substituteToolCalls tools c).1])).1,
        Event.prompt :: Event.inferCall :: (turnEventsPkg tools c ++
          (runPkg tools infer rest ((conv ++ [mkUserText u]) ++
            [Message.mk Role.assistant (substituteToolCalls tools c).1])).2))

/-- A full `pkg/agent` run: the conversation starts with the priming
user message. -/
def runPkgFull (tools : List ToolDefinition)
    (infer : List Message → Except String (List ContentBlock))
    (inputs : List String) : List Message × List Event :=
  runPkg tools infer inputs [primeMessage]

/-- The error flag of a tool-result block (`false` for other blocks). -/
def isErrorFlag : ContentBlock → Bool
  | ContentBlock.toolResult _ _ e => e
  | _ => false

/-- C4 counterexample: dispatching an unregistered tool name through
the `pkg/agent` dispatcher returns a tool result whose error string
embeds the tool name and whose error flag is `false`, not `true` as
claimed. -/
theorem dispatch_unknown_tool_counterexample :
    executeToolPkg [] "id1" "nosuch" "payload"
        = ContentBlock.toolResult "id1" "Error: Tool nosuch not found" false ∧
    isErrorFlag (executeToolPkg [] "id1" "nosuch" "payload") = false :=
  ⟨rfl, rfl⟩

/-- C4 amended: for every registry without the requested name and every
input payload, the monolithic dispatcher returns the fixed string
`tool not found` with the error flag set, while the `pkg/agent`
dispatcher returns the name-dependent string
`Error: Tool <name> not found` with the error flag left unset
(`false`). -/
theorem dispatch_unknown_tool_amended :
    ∀ (tools : List ToolDefinition) (id toolName input : String),
      (∀ t ∈ tools, t.name ≠ toolName) →
      executeToolMain tools id toolName input
          = ContentBlock.toolResult id "tool not found" true ∧
      executeToolPkg tools id toolName input
          = ContentBlock.toolResult id ("Error: Tool " ++ toolName ++ " not found") false := by
  intro tools id toolName input h
  have hfind : tools.find? (fun t => t.name == toolName) = none := by
    apply List.find?_eq_none.mpr
    intro t ht
    simpa using h t ht
  constructor
  · rw [executeToolMain, hfind]
  · rw [executeToolPkg, hfind]

/-- Witness for the amended C4 at a concrete input. -/
theorem dispatch_unknown_tool_amended_witness :
    executeToolMain [] "i1" "x" "p" = ContentBlock.toolResult "i1" "tool not found" true ∧
    executeToolPkg [] "i1" "x" "p"
        = ContentBlock.toolResult "i1" ("Error: Tool " ++ "x" ++ " not found") false :=
  dispatch_unknown_tool_amended [] "i1" "x" "p" (by simp)

/-- Whether an event is a tool dispatch. -/
def isDispatchEv : Event → Bool
  | Event.dispatch _ _ => true
  | _ => false

/-- C8's property on a turn's event trace: once a dispatch has
happened, no text is printed afterwards — equivalently, every print
precedes every dispatch. -/
def printsBeforeDispatches : List Event → Bool
  | [] => true
  | Event.dispatch _ _ :: rest =>
    rest.all (fun e => match e with
      | Event.printText _ => false
      | _ => true)
  | _ :: rest => printsBeforeDispatches rest

/-- C8 counterexample: a `pkg/agent` turn whose response holds one
text block and one `tool_use` block dispatches the tool before the
text is printed — the trace is the dispatch followed by the print. -/
theorem text_printed_before_dispatch_counterexample :
    turnEventsPkg [] [ContentBlock.text "hi", ContentBlock.toolUse "1" "t" "p"]
        = [Event.dispatch "t" "p",
           Event.printText ("hi" ++ "result: " ++ "Error: Tool t not found" ++ "\n")] ∧
    printsBeforeDispatches
        (turnEventsPkg [] [ContentBlock.text "hi", ContentBlock.toolUse "1" "t" "p"])
      = false := by
  constructor
  · rfl
  · rfl

/-- C8 amended: in the `pkg/agent` loop a turn's trace is all of its
tool dispatches followed by a single print of the formatted
(substituted) response — dispatch precedes text output; in the
monolithic loop prints and dispatches occur strictly interleaved in
block order (a text block is printed before the dispatch of any later
`tool_use` block and after that of any earlier one). -/
theorem text_and_dispatch_order_amended :
    ∀ (tools : List ToolDefinition) (c : List ContentBlock),
      turnEventsPkg tools c
          = (substituteToolCalls tools c).2
              ++ [Event.printText (formatResponse (substituteToolCalls tools c).1)] ∧
      (substituteToolCalls tools c).2.all isDispatchEv = true ∧
      turnEventsMain tools c = c.filterMap (fun b =>
        match b with
        | ContentBlock.text s => some (Event.printText s)
        | ContentBlock.toolUse _ n inp => some (Event.dispatch n inp)
        | ContentBlock.toolResult _ _ _ => none) := by
  intro tools c
  refine ⟨rfl, ?_, ?_⟩
  · induction c with
    | nil => rfl
    | cons b rest ih =>
      cases b with
      | text s => simpa [substituteToolCalls] using ih
      | toolUse id n inp => simpa [substituteToolCalls, isDispatchEv] using ih
      | toolResult tid ct e => simpa [substituteToolCalls] using ih
  · induction c with
    | nil => rfl
    | cons b rest ih =>
      cases b with
      | text s => simpa [turnEventsMain, processBlocksMain] using ih
      | toolUse id n inp => simpa [turnEventsMain, processBlocksMain] using ih
      | toolResult tid ct e => simpa [turnEventsMain, processBlocksMain] using ih

/-- Strict role alternation of a conversation: no two adjacent
messages share a role. -/
def rolesAlternate (l : List Message) : Prop :=
  List.Chain' (fun a b => a.role ≠ b.role) l

instance (l : List Message) : Decidable (rolesAlternate l) :=
  inferInstanceAs (Decidable (List.Chain' (fun a b : Message => a.role ≠ b.role) l))

/-- The role of the last message, if any. -/
def lastRole (l : List Message) : Option Role := l.getLast?.map Message.role

/-- Appending a message whose role differs from the last one preserves
alternation. -/
theorem rolesAlternate_append_one {l : List Message} {m : Message}
    (h : rolesAlternate l) (hlast : lastRole l ≠ some m.role) :
    rolesAlternate (l ++ [m]) := by
  rw [rolesAlternate, List.chain'_append]
  refine ⟨h, List.chain'_singleton _, ?_⟩
  intro x hx y hy
  have hyx : m = y := by simpa using hy
  subst hyx
  intro hroles
  apply hlast
  rw [lastRole, hx]
  simp [hroles]

/-- The last role after appending one message. -/
theorem lastRole_append_one (l : List Message) (m : Message) :
    lastRole (l ++ [m]) = some m.role := by
  rw [lastRole]
  simp

/-- The continuation of one monolithic loop iteration: halt, or recurse
with the new state, prefixing the turn's events. -/
def runMainCont (tools : List ToolDefinition)
    (infer : List Message → Except String (List ContentBlock)) (fuel : Nat) :
    TurnResult → List Message × List Event
  | TurnResult.halted conv evs => (conv, evs)
  | TurnResult.next inputs rn conv evs =>
    ((runMain tools infer fuel inputs rn conv).1,
      evs ++ (runMain tools infer fuel inputs rn conv).2)

/-- Unfolding one iteration of `runMain`. -/
theorem runMain_succ (tools : List ToolDefinition)
    (infer : List Message → Except String (List ContentBlock))
    (fuel : Nat) (inputs : List String) (rn : Bool) (conv : List Message) :
    runMain tools infer (fuel + 1) inputs rn conv
      = runMainCont tools infer fuel (mainStep tools infer inputs rn conv) := by
  rw [runMain]
  cases mainStep tools infer inputs rn conv <;> rfl

/-- The inference part of a monolithic iteration preserves role
alternation, given that the conversation alternates and currently
ends in a user message. -/
theorem runMainCont_mainInfer_alternates (tools : List ToolDefinition)
    (infer : List Message → Except String (List ContentBlock)) (fuel : Nat)
    (ih : ∀ (inputs : List String) (rn : Bool) (conv : List Message),
      rolesAlternate conv →
      (rn = true → lastRole conv ≠ some Role.user) →
      (rn = false → lastRole conv = some Role.user) →
      rolesAlternate (runMain tools infer fuel inputs rn conv).1)
    (inputs : List String) (conv : List Message) (evs : List Event)
    (hconv : rolesAlternate conv) (hlast : lastRole conv = some Role.user) :
    rolesAlternate (runMainCont tools infer fuel (mainInfer tools infer inputs conv evs)).1 := by
  cases hinf : infer conv with
  | error e =>
    simp only [mainInfer, hinf]
    exact hconv
  | ok c =>
    simp only [mainInfer, hinf]
    have h2 : rolesAlternate (conv ++ [Message.mk Role.assistant c]) :=
      rolesAlternate_append_one hconv (by rw [hlast]; simp)
    by_cases hpr : (processBlocksMain tools c).1 = []
    · rw [if_pos hpr]
      exact ih inputs true _ h2
        (fun _ => by rw [lastRole_append_one]; simp)
        (fun h => nomatch h)
    · rw [if_neg hpr]
      have h3 : rolesAlternate ((conv ++ [Message.mk Role.assistant c]) ++
          [Message.mk Role.user (processBlocksMain tools c).1]) :=
        rolesAlternate_append_one h2 (by rw [lastRole_append_one]; simp)
      exact ih inputs false _ h3
        (fun h => nomatch h)
        (fun _ => by rw [lastRole_append_one])

/-- Role alternation is an invariant of the monolithic loop: starting
from an alternating conversation whose last role matches the
`readUserInput` flag (a user message pending tool results when the
flag is cleared, anything but a trailing user message when set), the
final conversation alternates. -/
theorem runMain_alternates (tools : List ToolDefinition)
    (infer : List Message → Except String (List ContentBlock)) :
    ∀ (fuel : Nat) (inputs : List String) (rn : Bool) (conv : List Message),
      rolesAlternate conv →
      (rn = true → lastRole conv ≠ some Role.user) →
      (rn = false → lastRole conv = some Role.user) →
      rolesAlternate (runMain tools infer fuel inputs rn conv).1 := by
  intro fuel
  induction fuel with
  | zero => intro inputs rn conv hconv _ _; exact hconv
  | succ fuel ih =>
    intro inputs rn conv hconv hrt hrf
    rw [runMain_succ]
    cases rn with
    | false =>
      have hstep : mainStep tools infer inputs false conv
          = mainInfer tools infer inputs conv [] := by
        simp [mainStep]
      rw [hstep]
      exact runMainCont_mainInfer_alternates tools infer fuel ih inputs conv []
        hconv (hrf rfl)
    | true =>
      cases inputs with
      | nil =>
        have hstep : mainStep tools infer [] true conv
            = TurnResult.halted conv [Event.prompt] := by
          simp [mainStep]
        rw [hstep]
        exact hconv
      | cons u rest =>
        have hstep : mainStep tools infer (u :: rest) true conv
            = mainInfer tools infer rest (conv ++ [mkUserText u]) [Event.prompt] := by
          simp [mainStep]
        rw [hstep]
        have hc' : rolesAlternate (conv ++ [mkUserText u]) :=
          rolesAlternate_append_one hconv (hrt rfl)
        exact runMainCont_mainInfer_alternates tools infer fuel ih rest
          (conv ++ [mkUserText u]) [Event.prompt] hc'
          (by rw [lastRole_append_one]; rfl)

/-- In the `pkg/agent` loop, everything after the head of the
conversation alternates: each iteration appends a user message (role
distinct from the trailing assistant message) and then an assistant
message. -/
theorem runPkg_tail_alternates (tools : List ToolDefinition)
    (infer : List Message → Except String (List ContentBlock)) :
    ∀ (inputs : List String) (conv : List Message),
      conv ≠ [] →
      rolesAlternate conv.tail →
      lastRole conv.tail ≠ some Role.user →
      rolesAlternate ((runPkg tools infer inputs conv).1.tail) := by
  intro inputs
  induction inputs with
  | nil => intro conv _ h _; exact h
  | cons u rest ih =>
    intro conv hne htail hlast
    obtain ⟨m, cs, rfl⟩ : ∃ m cs, conv = m :: cs := by
      cases conv with
      | nil => exact absurd rfl hne
      | cons m cs => exact ⟨m, cs, rfl⟩
    rw [runPkg]
    cases hinf : infer (m :: cs ++ [mkUserText u]) with
    | error e =>
      show rolesAlternate (cs ++ [mkUserText u])
      exact rolesAlternate_append_one htail hlast
    | ok c =>
      apply ih
      · simp
      · show rolesAlternate ((cs ++ [mkUserText u]) ++
          [Message.mk Role.assistant (substituteToolCalls tools c).1])
        exact rolesAlternate_append_one (rolesAlternate_append_one htail hlast)
          (by rw [lastRole_append_one]; simp [mkUserText])
      · show lastRole ((cs ++ [mkUserText u]) ++
          [Message.mk Role.assistant (substituteToolCalls tools c).1]) ≠ some Role.user
        rw [lastRole_append_one]
        simp

/-- A backend that answers every conversation with one text block. -/
def inferTextC7 : List Message → Except String (List ContentBlock) :=
  fun _ => Except.ok [ContentBlock.text "ok"]

/-- C7 counterexample: in the `pkg/agent` loop, the initial priming
message and the first typed user message are adjacent and both
user-role, so the reachable conversation
`[prime, user "hi", assistant …]` does not strictly alternate. -/
theorem roles_alternate_counterexample :
    (runPkgFull [] inferTextC7 ["hi"]).1
        = [primeMessage, mkUserText "hi",
           Message.mk Role.assistant [ContentBlock.text "ok"]] ∧
    primeMessage.role = Role.user ∧
    (mkUserText "hi").role = Role.user ∧
    ¬ rolesAlternate (runPkgFull [] inferTextC7 ["hi"]).1 := by
  refine ⟨rfl, rfl, rfl, ?_⟩
  intro h
  rw [show (runPkgFull [] inferTextC7 ["hi"]).1
      = [primeMessage, mkUserText "hi",
         Message.mk Role.assistant [ContentBlock.text "ok"]] from rfl] at h
  rw [rolesAlternate, List.chain'_cons] at h
  exact h.1 rfl

/-- C7 amended: in the monolithic agent loop, message roles strictly
alternate in every reachable conversation; in the `pkg/agent` loop the
same holds for every adjacent pair except the first one — the
conversation after its initial priming user message alternates, but
the priming message and the first typed input are both user-role. -/
theorem roles_alternate_amended :
    (∀ (tools : List ToolDefinition)
        (infer : List Message → Except String (List ContentBlock))
        (fuel : Nat) (inputs : List String),
      rolesAlternate (runMainFull tools infer fuel inputs).1) ∧
    (∀ (tools : List ToolDefinition)
        (infer : List Message → Except String (List ContentBlock))
        (inputs : List String),
      rolesAlternate ((runPkgFull tools infer inputs).1.tail)) := by
  constructor
  · intro tools infer fuel inputs
    exact runMain_alternates tools infer fuel inputs true []
      (by simp [rolesAlternate]) (fun _ => by simp [lastRole]) (fun h => nomatch h)
  · intro tools infer inputs
    exact runPkg_tail_alternates tools infer inputs [primeMessage]
      (by simp) (by simp [rolesAlternate]) (by simp [lastRole])

/-- Whether a block is a tool result. -/
def isToolResultB : ContentBlock → Bool
  | ContentBlock.toolResult _ _ _ => true
  | _ => false

/-- Whether some user-role message of the conversation carries a tool
result block. -/
def hasUserToolResultMsg (conv : List Message) : Bool :=
  conv.any (fun m => (match m.role with
    | Role.user => true
    | Role.assistant => false) && m.content.any isToolResultB)

/-- A backend that answers every conversation with one tool-use
block. -/
def inferToolC1 : List Message → Except String (List ContentBlock) :=
  fun _ => Except.ok [ContentBlock.toolUse "id1" "t" "p"]

/-- C1 counterexample: in the `pkg/agent` loop, a response consisting
of one `tool_use` block leads to a conversation in which the tool
result sits inside the appended assistant message — no user message
with tool results is ever appended, inference runs exactly once, and
the loop prompts the user again right after the dispatch. -/
theorem tool_result_message_counterexample :
    inferToolC1 [primeMessage, mkUserText "hi"]
        = Except.ok [ContentBlock.toolUse "id1" "t" "p"] ∧
    (runPkgFull [] inferToolC1 ["hi"]).1
        = [primeMessage, mkUserText "hi",
           Message.mk Role.assistant
             [ContentBlock.toolResult "id1" "Error: Tool t not found" false]] ∧
    hasUserToolResultMsg (runPkgFull [] inferToolC1 ["hi"]).1 = false ∧
    (runPkgFull [] inferToolC1 ["hi"]).2.count Event.inferCall = 1 ∧
    (runPkgFull [] inferToolC1 ["hi"]).2
        = [Event.prompt, Event.inferCall, Event.dispatch "t" "p",
           Event.printText ("result: " ++ "Error: Tool t not found" ++ "\n"),
           Event.prompt] := by
  refine ⟨rfl, rfl, rfl, rfl, rfl⟩

/-- C1 amended: the behaviour the claim describes is the monolithic
loop's.  There, a response whose block walk collects at least one tool
result extends the conversation with the assistant message followed by
one single user message holding exactly the collected tool results,
and the loop recurses with the read flag cleared; the collected
results are one per `tool_use` block, in block order, each correlated
to its `tool_use` by identifier; and with the read flag cleared the
next iteration's first event is the inference call — the user is not
prompted.  (In the `pkg/agent` loop, by contrast, tool results replace
the `tool_use` blocks inside the assistant message itself and the loop
returns to prompting, as the counterexample shows.) -/
theorem tool_result_message_amended :
    (∀ (tools : List ToolDefinition)
        (infer : List Message → Except String (List ContentBlock))
        (fuel : Nat) (inputs : List String) (conv : List Message)
        (u : String) (c : List ContentBlock),
      infer (conv ++ [mkUserText u]) = Except.ok c →
      (processBlocksMain tools c).1 ≠ [] →
      runMain tools infer (fuel + 1) (u :: inputs) true conv =
        ((runMain tools infer fuel inputs false
            (((conv ++ [mkUserText u]) ++ [Message.mk Role.assistant c]) ++
              [Message.mk Role.user (processBlocksMain tools c).1])).1,
          Event.prompt :: Event.inferCall :: ((processBlocksMain tools c).2 ++
            (runMain tools infer fuel inputs false
              (((conv ++ [mkUserText u]) ++ [Message.mk Role.assistant c]) ++
                [Message.mk Role.user (processBlocksMain tools c).1])).2))) ∧
    (∀ (tools : List ToolDefinition) (c : List ContentBlock),
      (processBlocksMain tools c).1 = c.filterMap (fun b =>
        match b with
        | ContentBlock.toolUse id n inp => some (executeToolMain tools id n inp)
        | _ => none)) ∧
    (∀ (tools : List ToolDefinition) (id n inp : String),
      ∃ s e, executeToolMain tools id n inp = ContentBlock.toolResult id s e) ∧
    (∀ (tools : List ToolDefinition)
        (infer : List Message → Except String (List ContentBlock))
        (fuel : Nat) (inputs : List String) (conv : List Message),
      (runMain tools infer (fuel + 1) inputs false conv).2.head?
        = some Event.inferCall) := by
  refine ⟨?_, ?_, ?_, ?_⟩
  · intro tools infer fuel inputs conv u c hinf hne
    rw [runMain_succ]
    have hstep : mainStep tools infer (u :: inputs) true conv
        = mainInfer tools infer inputs (conv ++ [mkUserText u]) [Event.prompt] := by
      simp [mainStep]
    rw [hstep]
    simp only [mainInfer, hinf, if_neg hne, runMainCont]
    rfl
  · intro tools c
    induction c with
    | nil => rfl
    | cons b rest ih =>
      cases b with
      | text s => simpa [processBlocksMain] using ih
      | toolUse id n inp => simpa [processBlocksMain] using ih
      | toolResult tid ct e => simpa [processBlocksMain] using ih
  · intro tools id n inp
    cases hf : tools.find? (fun t => t.name == n) with
    | none => exact ⟨"tool not found", true, by simp [executeToolMain, hf]⟩
    | some t =>
      cases hfn : t.fn inp with
      | error e => exact ⟨e, true, by simp [executeToolMain, hf, hfn]⟩
      | ok r => exact ⟨r, false, by simp [executeToolMain, hf, hfn]⟩
  · intro tools infer fuel inputs conv
    rw [runMain_succ]
    have hstep : mainStep tools infer inputs false conv
        = mainInfer tools infer inputs conv [] := by
      simp [mainStep]
    rw [hstep]
    cases hinf : infer conv with
    | error e => simp [mainInfer, hinf, runMainCont]
    | ok c =>
      by_cases hpr : (processBlocksMain tools c).1 = [] <;>
        simp [mainInfer, hinf, hpr, runMainCont]

/-- A backend for the C1 witness, answering with one tool-use block. -/
def inferToolC1w : List Message → Except String (List ContentBlock) :=
  fun _ => Except.ok [ContentBlock.toolUse "1" "t" "p"]

/-- Witness for the amended C1 at a concrete input. -/
theorem tool_result_message_amended_witness :
    runMain [] inferToolC1w 1 ["x"] true [] =
      ((runMain [] inferToolC1w 0 [] false
          ((([] ++ [mkUserText "x"]) ++
            [Message.mk Role.assistant [ContentBlock.toolUse "1" "t" "p"]]) ++
            [Message.mk Role.user
              (processBlocksMain [] [ContentBlock.toolUse "1" "t" "p"]).1])).1,
        Event.prompt :: Event.inferCall ::
          ((processBlocksMain [] [ContentBlock.toolUse "1" "t" "p"]).2 ++
            (runMain [] inferToolC1w 0 [] false
              ((([] ++ [mkUserText "x"]) ++
                [Message.mk Role.assistant [ContentBlock.toolUse "1" "t" "p"]]) ++
                [Message.mk Role.user
                  (processBlocksMain [] [ContentBlock.toolUse "1" "t" "p"]).1])).2)) :=
  tool_result_message_amended.1 [] inferToolC1w 0 [] [] "x"
    [ContentBlock.toolUse "1" "t" "p"] rfl (by decide)
